import Mathlib

/-!
Verification of the mcp-rector core: the markdown-to-catalog pipeline
(`src/services/rule-parser.ts`), the query engine
(`src/services/rule-filter.ts`, plus the earlier substring variant of the
same module), and the rule cache (`src/models/cache.ts`).

JavaScript strings are modelled as `List Char`.  `String.prototype.trim`,
`toLowerCase`, `split`, `includes` and the regular expressions the source
uses are embedded as executable list functions below, each named after the
source operation it models.  `toLowerCase` is modelled on the ASCII range
(core `Char.toLower`), the only range the repository's data exercises.
-/

namespace Rector

/-- JS regex `\s` class (also the set `String.prototype.trim` strips), by
code point: space, tab, LF, VT, FF, CR, NBSP, and the Unicode space
separators, line/paragraph separators and BOM. -/
def isJsWs (c : Char) : Bool :=
  c.toNat == 32 || c.toNat == 9 || c.toNat == 10 || c.toNat == 11 ||
  c.toNat == 12 || c.toNat == 13 || c.toNat == 160 || c.toNat == 5760 ||
  (8192 ≤ c.toNat && c.toNat ≤ 8202) || c.toNat == 8232 || c.toNat == 8233 ||
  c.toNat == 8239 || c.toNat == 8287 || c.toNat == 12288 || c.toNat == 65279

/-- Lowercase ASCII letter or digit: the JS character class `[a-z0-9]`. -/
def isLowerAlnum (c : Char) : Bool :=
  (97 ≤ c.toNat && c.toNat ≤ 122) || (48 ≤ c.toNat && c.toNat ≤ 57)

/-- ASCII letter or digit (the characters C10 quantifies over). -/
def isAsciiAlphanum (c : Char) : Bool :=
  (65 ≤ c.toNat && c.toNat ≤ 90) || (97 ≤ c.toNat && c.toNat ≤ 122) ||
  (48 ≤ c.toNat && c.toNat ≤ 57)

/-- `text.toLowerCase()` on the character list. -/
def toLowerList (cs : List Char) : List Char :=
  cs.map Char.toLower

/-- `s.trim()`: drop JS whitespace from both ends. -/
def jsTrim (cs : List Char) : List Char :=
  (((cs.dropWhile isJsWs).reverse).dropWhile isJsWs).reverse

/-- Whether `pre` is a leading segment of `cs` (JS `startsWith`). -/
def startsWithSeq : List Char → List Char → Bool
  | [], _ => true
  | _ :: _, [] => false
  | p :: ps, c :: cs => p == c && startsWithSeq ps cs

/-- JS `text.includes(needle)`: `needle` occurs contiguously in `cs`. -/
def containsSeq (needle : List Char) : List Char → Bool
  | [] => needle.isEmpty
  | c :: cs => startsWithSeq needle (c :: cs) || containsSeq needle cs

/-- Worker for `splitOnSeq`, structural in the input so that it evaluates in
the kernel.  `acc` is the reversed current chunk; `skip` counts separator
characters still to be consumed after a separator match. -/
def splitOnSeqGo (sep : List Char) : List Char → List Char → Nat → List (List Char)
  | [], acc, _ => [acc.reverse]
  | c :: cs, acc, skip =>
    match skip with
    | k + 1 => splitOnSeqGo sep cs acc k
    | 0 =>
      if startsWithSeq sep (c :: cs) && !sep.isEmpty then
        acc.reverse :: splitOnSeqGo sep cs [] (sep.length - 1)
      else splitOnSeqGo sep cs (c :: acc) 0

/-- JS `s.split(sep)` for a non-empty literal separator: split at each
leftmost, non-overlapping occurrence of `sep`. -/
def splitOnSeq (sep cs : List Char) : List (List Char) :=
  splitOnSeqGo sep cs [] 0

/-- Worker for `splitJsWs`: maximal runs of non-whitespace characters.
`s.split(/\s+/)` can yield an empty first or last element at the string's
edges; every caller in the source filters by a minimum token length, so the
model drops those empties directly. -/
def splitJsWsGo : List Char → List Char → List (List Char)
  | [], acc => if acc.isEmpty then [] else [acc.reverse]
  | c :: cs, acc =>
    if isJsWs c then
      if acc.isEmpty then splitJsWsGo cs [] else acc.reverse :: splitJsWsGo cs []
    else splitJsWsGo cs (c :: acc)

/-- JS `s.split(/\s+/)` (modulo edge empties, see `splitJsWsGo`). -/
def splitJsWs (cs : List Char) : List (List Char) :=
  splitJsWsGo cs []

/-- Worker for `collapseSeps`: the flag records whether the previous
character belonged to a separator run already replaced by a hyphen. -/
def collapseSepsGo : Bool → List Char → List Char
  | _, [] => []
  | inRun, c :: cs =>
    if c == '_' || isJsWs c then
      if inRun then collapseSepsGo true cs else '-' :: collapseSepsGo true cs
    else c :: collapseSepsGo false cs

/-- JS `s.replace(/[_\s]+/g, '-')`: each run of underscores and whitespace
becomes a single hyphen. -/
def collapseSeps (cs : List Char) : List Char :=
  collapseSepsGo false cs

/-- JS `s.replace(/[^a-z0-9\s]/g, ' ')` as used after lowercasing. -/
def replaceNonAlnum (cs : List Char) : List Char :=
  cs.map fun c => if isLowerAlnum c || isJsWs c then c else ' '

/-- JS `arr.join(' ')`. -/
def joinSpace : List (List Char) → List Char
  | [] => []
  | [t] => t
  | t :: ts => t ++ ' ' :: joinSpace ts

/-- Insertion of a hyphen at each lower-to-upper camel boundary, the JS
`replace(/([a-z])([A-Z])/g, '$1-$2')`: after a match the scan resumes past
the matched pair. -/
def kebabBoundary : List Char → List Char
  | [] => []
  | [c] => [c]
  | a :: b :: rest =>
    if a.isLower && b.isUpper then a :: '-' :: b :: kebabBoundary rest
    else a :: kebabBoundary (b :: rest)

/-- Insertion of a space at each lower-to-upper camel boundary, the JS
`replace(/([a-z])([A-Z])/g, '$1 $2')`. -/
def camelSplit : List Char → List Char
  | [] => []
  | [c] => [c]
  | a :: b :: rest =>
    if a.isLower && b.isUpper then a :: ' ' :: b :: camelSplit rest
    else a :: camelSplit (b :: rest)

/-- First-occurrence deduplication, the JS `[...new Set(xs)]` (insertion
order of a `Set` keeps the first occurrence of each element). -/
def dedupFirst : List (List Char) → List (List Char)
  | [] => []
  | x :: xs => x :: (dedupFirst xs).filter fun y => y ≠ x

/-- Code-point lexicographic order on character lists.  It models the
default-locale `localeCompare` comparator used to sort rule sets; the
claims proved about that sort do not depend on which total order is used. -/
def lexLe : List Char → List Char → Bool
  | [], _ => true
  | _ :: _, [] => false
  | a :: as, b :: bs => if a == b then lexLe as bs else decide (a < b)

/-! ## Data model (`src/models/rule.ts`) -/

/-- The `status` field's enumeration. -/
inductive RuleStatus where
  | stable
  | deprecated
  | experimental
deriving DecidableEq, Repr

/-- The `Rule` interface.  Optional interface fields are `Option`s. -/
structure Rule where
  id : List Char
  name : List Char
  description : List Char
  ruleSet : List Char
  classPath : Option (List Char) := none
  status : Option RuleStatus := none
  configurable : Option Bool := none
  tags : Option (List (List Char)) := none
deriving DecidableEq, Repr

/-- The `RuleSet` interface. -/
structure RuleSet where
  name : List Char
  displayName : List Char
  description : Option (List Char) := none
  ruleCount : Nat
deriving DecidableEq, Repr

/-! ## Query engine (`src/services/rule-filter.ts`) -/

/-- The `Relevance` union type. -/
inductive Relevance where
  | name
  | description
  | tag
deriving DecidableEq, Repr

/-- `RuleWithRelevance extends Rule` (the spread `{...rule, relevance}`). -/
structure RuleWithRelevance extends Rule where
  relevance : Relevance
deriving DecidableEq, Repr

/-- `normalizeRuleSetName`: lowercase, then each run of underscores and
whitespace becomes one hyphen. -/
def normalizeRuleSetName (name : List Char) : List Char :=
  collapseSeps (toLowerList name)

/-- `filterRulesByRuleSet`: keep the rules whose normalized `ruleSet` equals
the normalized query. -/
def filterRulesByRuleSet (rules : List Rule) (ruleSetQuery : List Char) : List Rule :=
  let normalizedQuery := normalizeRuleSetName ruleSetQuery
  rules.filter fun rule => normalizeRuleSetName rule.ruleSet == normalizedQuery

set_option linter.unusedVariables false in
/-- `extractRuleSetMetadata`: `null` on an empty list, else a `RuleSet`
built from the first rule's `ruleSet` (the `ruleSetName` argument is unused
in the source too). -/
def extractRuleSetMetadata (rules : List Rule) (ruleSetName : List Char) : Option RuleSet :=
  match rules with
  | [] => none
  | firstRule :: _ =>
    let ruleSet := firstRule.ruleSet
    some { name := normalizeRuleSetName ruleSet
           displayName := ruleSet
           description := some ("Rules for ".toList ++ ruleSet)
           ruleCount := rules.length }

/-- `tokenizeQuery`: lowercase, non-`[a-z0-9\s]` characters to spaces, split
on whitespace, keep tokens of length at least 2. -/
def tokenizeQuery (query : List Char) : List (List Char) :=
  (splitJsWs (replaceNonAlnum (toLowerList query))).filter fun token =>
    decide (2 ≤ token.length)

/-- `matchesAllTokens`: every token is a substring of the lowercased text. -/
def matchesAllTokens (text : List Char) (tokens : List (List Char)) : Bool :=
  let lowerText := toLowerList text
  tokens.all fun token => containsSeq token lowerText

/-- The relevance the `searchRules` loop body assigns to one rule: the first
of name, description, joined tags that matches all tokens; `none` otherwise
(tags are only consulted when the `tags` field is present). -/
def ruleRelevance (rule : Rule) (tokens : List (List Char)) : Option Relevance :=
  if matchesAllTokens rule.name tokens then some .name
  else if matchesAllTokens rule.description tokens then some .description
  else match rule.tags with
    | some tags =>
      if matchesAllTokens (joinSpace tags) tokens then some .tag else none
    | none => none

/-- The `rulesToSearch` selection at the top of both search variants: a
truthy (present, non-empty) `ruleSetFilter` restricts to its category. -/
def rulesToSearch (rules : List Rule) (ruleSetFilter : Option (List Char)) : List Rule :=
  match ruleSetFilter with
  | some f => if f.isEmpty then rules else filterRulesByRuleSet rules f
  | none => rules

/-- The `results` array built by the `searchRules` loop, in input order. -/
def searchMatches (rules : List Rule) (tokens : List (List Char)) : List RuleWithRelevance :=
  rules.filterMap fun rule =>
    (ruleRelevance rule tokens).map fun relevance =>
      { toRule := rule, relevance := relevance }

/-- Numeric rank of a relevance level, the source's `relevanceOrder` map. -/
def relevanceOrder : Relevance → Nat
  | .name => 0
  | .description => 1
  | .tag => 2

/-- The comparator `relevanceOrder[a.relevance] - relevanceOrder[b.relevance]`
as the total preorder it sorts by. -/
def relevanceLe (a b : RuleWithRelevance) : Prop :=
  relevanceOrder a.relevance ≤ relevanceOrder b.relevance

instance : DecidableRel relevanceLe := fun a b =>
  Nat.decLe (relevanceOrder a.relevance) (relevanceOrder b.relevance)

/-- `results.sort(comparator)`.  `Array.prototype.sort` is stable (ES2019),
and every stable sort agrees with insertion sort on a total preorder, so
insertion sort is the denotation of the source's sort call. -/
def sortByRelevance (results : List RuleWithRelevance) : List RuleWithRelevance :=
  List.insertionSort relevanceLe results

/-- `searchRules` (`src/services/rule-filter.ts`, token variant): filter by
category, tokenize, return empty when no token survives, else match each
rule at the first applicable level and sort by relevance. -/
def searchRules (rules : List Rule) (query : List Char)
    (ruleSetFilter : Option (List Char) := none) : List RuleWithRelevance :=
  let toSearch := rulesToSearch rules ruleSetFilter
  let tokens := tokenizeQuery query
  if tokens.isEmpty then []
  else sortByRelevance (searchMatches toSearch tokens)

/-! ## Query engine, substring variant (the repository's earlier
`rule-filter.ts`, kept in the tree): whole-query substring matching, no
tokenization. -/

/-- `matchesQuery`: case-insensitive whole-query substring test. -/
def matchesQuery (text query : List Char) : Bool :=
  containsSeq (toLowerList query) (toLowerList text)

/-- The substring variant's per-rule relevance: tags match when some single
tag contains the query. -/
def ruleRelevanceSubstring (rule : Rule) (query : List Char) : Option Relevance :=
  if matchesQuery rule.name query then some .name
  else if matchesQuery rule.description query then some .description
  else match rule.tags with
    | some tags =>
      if tags.any (fun tag => matchesQuery tag query) then some .tag else none
    | none => none

/-- `searchRules` of the substring variant: no tokenization and no
empty-query guard. -/
def searchRulesSubstring (rules : List Rule) (query : List Char)
    (ruleSetFilter : Option (List Char) := none) : List RuleWithRelevance :=
  let toSearch := rulesToSearch rules ruleSetFilter
  sortByRelevance <| toSearch.filterMap fun rule =>
    (ruleRelevanceSubstring rule query).map fun relevance =>
      { toRule := rule, relevance := relevance }

/-! ## Document parser (`src/services/rule-parser.ts`) -/

/-- The parser's stoplist `commonWords`. -/
def commonWords : List (List Char) :=
  ["this", "that", "with", "from", "have", "will", "been", "were",
   "rector", "rule", "your", "code"].map String.toList

/-- `extractSearchTags`: camel-split words of the name (length over 2) and
the first ten lowercase alphanumeric description words of length over 3 not
on the stoplist, first occurrences kept. -/
def extractSearchTags (name description : List Char) : List (List Char) :=
  let nameWords := (splitJsWs (toLowerList (camelSplit name))).filter
    fun word => decide (2 < word.length)
  let descWords := (((splitJsWs (replaceNonAlnum (toLowerList description))).filter
    fun word => decide (3 < word.length)).filter
    fun word => !commonWords.contains word).take 10
  dedupFirst (nameWords ++ descWords)

/-- `RawRule` as `validateRule` receives it (`Partial<RawRule>`): every
field may be absent. -/
structure RawRule where
  name : Option (List Char) := none
  description : Option (List Char) := none
  category : Option (List Char) := none
  classPath : Option (List Char) := none
  configurable : Option Bool := none
deriving DecidableEq, Repr

/-- `validateRule`: reject when `name`, `description` or `category` is
missing or trims to empty; otherwise build the `Rule`, with the kebab-cased
id, trimmed fields, `stable` status and derived tags. -/
def validateRule (raw : RawRule) : Option Rule :=
  match raw.name, raw.description, raw.category with
  | some n, some d, some c =>
    if (jsTrim n).isEmpty || (jsTrim d).isEmpty || (jsTrim c).isEmpty then none
    else some
      { id := toLowerList (kebabBoundary n)
        name := jsTrim n
        description := jsTrim d
        ruleSet := jsTrim c
        classPath := raw.classPath.map jsTrim
        status := some .stable
        configurable := some (raw.configurable.getD false)
        tags := some (extractSearchTags n d) }
  | _, _, _ => none

/-- The backtick character (code point 96). -/
def backtickChar : Char := Char.ofNat 96

/-- The fenced-code-block delimiter, three backticks. -/
def fenceMarker : List Char := [backtickChar, backtickChar, backtickChar]

/-- The regex `\[`([^`]+)`\]` of the `- class:` extraction: first match,
scanning left to right, of a bracketed backtick span with a non-empty
backtick-free capture. -/
def extractBracketCode : List Char → Option (List Char)
  | [] => none
  | c :: cs =>
    if c == '[' then
      match cs with
      | b :: rest =>
        if b == backtickChar then
          let cap := rest.takeWhile fun ch => ch ≠ backtickChar
          if !cap.isEmpty && startsWithSeq [backtickChar, ']'] (rest.drop cap.length)
          then some cap
          else extractBracketCode cs
        else extractBracketCode cs
      | [] => none
    else extractBracketCode cs

/-- Mutable locals of the rule-chunk scanning loop in `parseRectorMarkdown`. -/
structure ScanState where
  description : List Char := []
  classPath : Option (List Char) := none
  configurable : Bool := false
deriving DecidableEq, Repr

/-- The scanning loop over a rule chunk's lines (from index 1): first
qualifying line becomes the description, `:wrench:` anywhere sets
`configurable`, a `- class:` line with a bracketed code span sets
`classPath`, and a fence or section marker stops the scan after its line
is processed. -/
def scanRuleLines : List (List Char) → ScanState → ScanState
  | [], st => st
  | l :: rest, st =>
    let line := jsTrim l
    let st1 :=
      if st.description.isEmpty && !line.isEmpty &&
         !startsWithSeq [':'] line && !startsWithSeq ['-'] line &&
         !startsWithSeq fenceMarker line
      then { st with description := line } else st
    let st2 :=
      if containsSeq ":wrench:".toList line
      then { st1 with configurable := true } else st1
    let st3 :=
      if startsWithSeq "- class:".toList line then
        match extractBracketCode line with
        | some m => { st2 with classPath := some m }
        | none => st2
      else st2
    if startsWithSeq fenceMarker line || startsWithSeq "##".toList line then st3
    else scanRuleLines rest st3

/-- The body of `parseRectorMarkdown`'s inner loop for one `### ` rule
chunk: first line is the candidate name, the remaining lines are scanned,
and the candidate goes through `validateRule`. -/
def parseRuleChunk (category ruleText : List Char) : Option Rule :=
  let ruleLines := splitOnSeq ['\n'] ruleText
  let name := jsTrim ruleLines.headI
  let st := scanRuleLines (ruleLines.drop 1) {}
  validateRule
    { name := some name, description := some st.description,
      category := some category, classPath := st.classPath,
      configurable := some st.configurable }

/-- The body of `parseRectorMarkdown`'s outer loop for one `## ` section:
first line is the category (a literal `Categories` section is skipped),
the rest splits into `### ` rule chunks whose accepted rules are appended
in order. -/
def parseSection (rules : List Rule) (sec : List Char) : List Rule :=
  let lines := splitOnSeq ['\n'] sec
  let category := jsTrim lines.headI
  if category == "Categories".toList then rules
  else
    let ruleTexts := (splitOnSeq "\n### ".toList sec).drop 1
    ruleTexts.foldl
      (fun rules ruleText =>
        match parseRuleChunk category ruleText with
        | some rule => rules ++ [rule]
        | none => rules)
      rules

/-- `parseRectorMarkdown`: split into `## ` sections (preamble dropped),
then fold the section parser over them in document order. -/
def parseRectorMarkdown (markdown : List Char) : List Rule :=
  ((splitOnSeq "\n## ".toList markdown).drop 1).foldl parseSection []

/-- `formatDisplayName`: `Php` plus digits renders as `PHP major.minor`
(minor defaulting to 0, later digits dropped); otherwise camel boundaries
become spaces and the result is trimmed. -/
def formatDisplayName (name : List Char) : List Char :=
  if startsWithSeq "Php".toList name && !(name.drop 3).isEmpty &&
     (name.drop 3).all Char.isDigit then
    let version := name.drop 3
    let major := version.take 1
    let minor := match version.drop 1 with
      | [] => ['0']
      | m :: _ => [m]
    "PHP ".toList ++ major ++ '.' :: minor
  else jsTrim (camelSplit name)

/-- One step of `deriveRuleSets`' grouping loop: ensure a map entry for the
rule's category exists (appended in first-seen order, count 0), then
increment that entry's count. -/
def insertRule (acc : List RuleSet) (rule : Rule) : List RuleSet :=
  let acc1 :=
    if acc.any (fun s => s.name == rule.ruleSet) then acc
    else acc ++ [{ name := rule.ruleSet,
                   displayName := formatDisplayName rule.ruleSet,
                   ruleCount := 0 }]
  acc1.map fun s =>
    if s.name == rule.ruleSet then { s with ruleCount := s.ruleCount + 1 } else s

/-- The `sort` comparator of `deriveRuleSets`: `displayName` order (see
`lexLe` on the locale model). -/
def ruleSetLe (a b : RuleSet) : Prop :=
  lexLe a.displayName b.displayName = true

instance : DecidableRel ruleSetLe := fun a b =>
  inferInstanceAs (Decidable (lexLe a.displayName b.displayName = true))

/-- `deriveRuleSets`: group by exact `ruleSet` value in first-seen order,
then sort by display name (stable sort, modelled by insertion sort). -/
def deriveRuleSets (rules : List Rule) : List RuleSet :=
  List.insertionSort ruleSetLe (rules.foldl insertRule [])

/-! ## Catalog cache (`src/models/cache.ts`)

The class is modelled as explicit state passing.  `async` methods become
functions from a fetch outcome (the dynamic-import-plus-`fetchRectorMarkdown`
collaborator, an `Except` of an error message or the markdown text) and a
timestamp (`Date.now`, the calls within one load collapsed to one instant)
to a result-state pair.  The `fetchPromise` single-flight handle is a
concurrency artifact: in this sequential model every load runs to
completion inside its operation, so the handle is `null` at every operation
boundary and carries no state. -/

inductive CacheStatus where
  | empty
  | loading
  | loaded
  | error
deriving DecidableEq, Repr

/-- The `CacheState` interface (`lastFetched` a numeric timestamp). -/
structure CacheState where
  rules : List Rule
  ruleSets : List RuleSet
  lastFetched : Nat
  status : CacheStatus
deriving DecidableEq, Repr

/-- The `CacheError` interface. -/
structure CacheError where
  message : List Char
  timestamp : Nat
  hadFallback : Bool
deriving DecidableEq, Repr

/-- The `CachedData` interface. -/
structure CachedData where
  rules : List Rule
  ruleSets : List RuleSet
  lastFetched : Nat
deriving DecidableEq, Repr

/-- The mutable fields of the `RectorCache` class (minus `fetchPromise`,
see the section comment). -/
structure RectorCacheSt where
  cache : Option CachedData
  state : CacheState
  lastError : Option CacheError
deriving DecidableEq, Repr

/-- The field initializers of `RectorCache`. -/
def initialCache : RectorCacheSt :=
  { cache := none
    state := { rules := [], ruleSets := [], lastFetched := 0, status := .empty }
    lastError := none }

/-- A fetch outcome: the markdown text, or the thrown error's message. -/
abbrev FetchOutcome := Except (List Char) (List Char)

instance : DecidableEq FetchOutcome := fun a b =>
  match a, b with
  | .ok x, .ok y =>
    if h : x = y then .isTrue (by rw [h]) else .isFalse (by simp [h])
  | .error x, .error y =>
    if h : x = y then .isTrue (by rw [h]) else .isFalse (by simp [h])
  | .ok _, .error _ => .isFalse (by simp)
  | .error _, .ok _ => .isFalse (by simp)

/-- `loadData`: set `loading`; on a successful fetch parse, derive, replace
the whole internal state and clear the last error; on a failed fetch record
the error and `status=error`, then either return the stale state's data
(when its `rules` is non-empty) or rethrow. -/
def loadData (fetch : FetchOutcome) (now : Nat) (s : RectorCacheSt) :
    Except (List Char) CachedData × RectorCacheSt :=
  let s1 := { s with state := { s.state with status := .loading } }
  match fetch with
  | .ok markdown =>
    let rules := parseRectorMarkdown markdown
    let ruleSets := deriveRuleSets rules
    let s2 := { s1 with
      state := { rules := rules, ruleSets := ruleSets,
                 lastFetched := now, status := .loaded }
      lastError := none }
    (.ok { rules := rules, ruleSets := ruleSets, lastFetched := now }, s2)
  | .error msg =>
    let hadFallback : Bool := decide (0 < s1.state.rules.length)
    let s2 := { s1 with
      lastError := some { message := msg, timestamp := now, hadFallback := hadFallback }
      state := { s1.state with status := .error } }
    if hadFallback then
      (.ok { rules := s2.state.rules, ruleSets := s2.state.ruleSets,
             lastFetched := s2.state.lastFetched }, s2)
    else (.error msg, s2)

/-- `ensureLoaded`: run the load; on success memoize the returned data in
`this.cache`; on failure pass the error on (the `finally` clearing of
`fetchPromise` has no observable effect in the sequential model). -/
def ensureLoaded (fetch : FetchOutcome) (now : Nat) (s : RectorCacheSt) :
    Except (List Char) CachedData × RectorCacheSt :=
  match loadData fetch now s with
  | (.ok d, s1) => (.ok d, { s1 with cache := some d })
  | (.error e, s1) => (.error e, s1)

/-- `getRules`: serve `this.cache.rules` when the cache is set, else load. -/
def getRules (fetch : FetchOutcome) (now : Nat) (s : RectorCacheSt) :
    Except (List Char) (List Rule) × RectorCacheSt :=
  match s.cache with
  | some d => (.ok d.rules, s)
  | none =>
    match ensureLoaded fetch now s with
    | (.ok d, s1) => (.ok d.rules, s1)
    | (.error e, s1) => (.error e, s1)

/-- `getRuleSets`: serve `this.cache.ruleSets` when the cache is set, else
load. -/
def getRuleSets (fetch : FetchOutcome) (now : Nat) (s : RectorCacheSt) :
    Except (List Char) (List RuleSet) × RectorCacheSt :=
  match s.cache with
  | some d => (.ok d.ruleSets, s)
  | none =>
    match ensureLoaded fetch now s with
    | (.ok d, s1) => (.ok d.ruleSets, s1)
    | (.error e, s1) => (.error e, s1)

/-- `getStatus`. -/
def getStatus (s : RectorCacheSt) : CacheStatus :=
  s.state.status

/-- `getLastError`. -/
def getLastError (s : RectorCacheSt) : Option CacheError :=
  s.lastError

/-- `isLoaded`. -/
def isLoaded (s : RectorCacheSt) : Bool :=
  s.cache.isSome

/-- `clear`: drop the cache and reset the state (the last error is not
touched by the source either). -/
def clearCache (s : RectorCacheSt) : RectorCacheSt :=
  { cache := none
    state := { rules := [], ruleSets := [], lastFetched := 0, status := .empty }
    lastError := s.lastError }

/-- One public cache operation, with the environment inputs (fetch outcome
and clock) a run of it would consume. -/
inductive CacheOp where
  | opGetRules (fetch : FetchOutcome) (now : Nat)
  | opGetRuleSets (fetch : FetchOutcome) (now : Nat)
  | opClear
deriving DecidableEq, Repr

/-- The state after one public operation (results discarded). -/
def applyOp (s : RectorCacheSt) : CacheOp → RectorCacheSt
  | .opGetRules fetch now => (getRules fetch now s).2
  | .opGetRuleSets fetch now => (getRuleSets fetch now s).2
  | .opClear => clearCache s

/-- The state reached from a fresh cache by a sequence of public
operations. -/
def runOps (ops : List CacheOp) : RectorCacheSt :=
  ops.foldl applyOp initialCache

/-! ## Character-class facts used by the search-variant comparison. -/

/-- Below the surrogate range, `Char.ofNat` is a section of `Char.toNat`. -/
theorem toNat_ofNat_lt (n : Nat) (h : n < 55296) : (Char.ofNat n).toNat = n := by
  have hv : n.isValidChar := Or.inl h
  rw [Char.ofNat, dif_pos hv]
  rfl

/-- Lowercasing an ASCII letter or digit gives a lowercase letter or
digit. -/
theorem toLower_alnum (c : Char) (h : isAsciiAlphanum c = true) :
    isLowerAlnum (Char.toLower c) = true := by
  unfold Char.toLower
  by_cases hu : c.toNat ≥ 65 ∧ c.toNat ≤ 90
  · rw [if_pos hu]
    unfold isLowerAlnum
    rw [toNat_ofNat_lt (c.toNat + 32) (by omega)]
    simp only [Bool.or_eq_true, Bool.and_eq_true, decide_eq_true_eq]
    omega
  · rw [if_neg hu]
    unfold isAsciiAlphanum at h
    unfold isLowerAlnum
    simp only [Bool.or_eq_true, Bool.and_eq_true, decide_eq_true_eq] at h ⊢
    omega

/-- A lowercase letter or digit is not JS whitespace. -/
theorem lowerAlnum_not_ws (c : Char) (h : isLowerAlnum c = true) :
    isJsWs c = false := by
  unfold isLowerAlnum at h
  unfold isJsWs
  simp only [Bool.or_eq_true, Bool.and_eq_true, decide_eq_true_eq,
    beq_iff_eq] at h
  simp only [Bool.or_eq_false_iff, Bool.and_eq_false_iff,
    decide_eq_false_iff_not, beq_eq_false_iff_ne, ne_eq]
  omega

/-- A lowercase letter or digit is not the space character. -/
theorem lowerAlnum_ne_space (c : Char) (h : isLowerAlnum c = true) :
    c ≠ ' ' := by
  intro habs
  subst habs
  exact absurd h (by decide)

/-! ## Fixtures: concrete rules used by witnesses and counterexamples. -/

/-- A rule whose category is literally named `PHP 8.0` (as the parser
produces from a `## PHP 8.0` heading). -/
def php80Rule : Rule :=
  { id := "union-types-rule".toList
    name := "UnionTypesRule".toList
    description := "Add union types where possible".toList
    ruleSet := "PHP 8.0".toList }

/-- A rule of the `Coding Style` category, with tags. -/
def codingStyleRule : Rule :=
  { id := "remove-unused-variable-rule".toList
    name := "RemoveUnusedVariableRule".toList
    description := "Remove unused variables from code".toList
    ruleSet := "Coding Style".toList
    tags := some (["remove", "unused", "variable"].map String.toList) }

/-- The markdown document of the repository's parser test
(`rule-parser.test.ts`). -/
def testMarkdown : List Char :=
  ("\n# Rector Rules Overview\n\n## Coding Style\n\n### RemoveUnusedVariableRule\n\n" ++
   "Remove unused variables from code\n\n" ++
   "- class: [`Rector\\CodingStyle\\Rector\\ClassMethod\\RemoveUnusedVariableRule`]\n\n" ++
   "## PHP 8.0\n\n### UnionTypesRule\n\nAdd union types where possible\n\n" ++
   "- class: [`Rector\\Php80\\Rector\\FunctionLike\\UnionTypesRule`]\n").toList

/-- The first rule the parser produces from `testMarkdown`. -/
def codingStyleParsedRule : Rule :=
  { id := "remove-unused-variable-rule".toList
    name := "RemoveUnusedVariableRule".toList
    description := "Remove unused variables from code".toList
    ruleSet := "Coding Style".toList
    classPath := some "Rector\\CodingStyle\\Rector\\ClassMethod\\RemoveUnusedVariableRule".toList
    status := some .stable
    configurable := some false
    tags := some (["remove", "unused", "variable", "rule", "variables"].map String.toList) }

/-- A cache state holding a previously loaded snapshot in its internal
state but with `cache` cleared, as `loadData`'s fallback branch reads it. -/
def staleCacheSt : RectorCacheSt :=
  { cache := none
    state := { rules := [codingStyleRule], ruleSets := deriveRuleSets [codingStyleRule],
               lastFetched := 5, status := .loaded }
    lastError := none }

/-! ## C8: no surviving token means an empty search result. -/

/-- C8: whenever tokenization of the query yields no token — in particular
for the empty query, where the tokenizer returns no tokens — `searchRules`
returns the empty list without error, for every rule list and optional
category filter. -/
theorem searchRules_no_tokens (rules : List Rule) (fo : Option (List Char))
    (q : List Char) (h : tokenizeQuery q = []) :
    searchRules rules q fo = [] := by
  simp [searchRules, h]

/-- Witness for C8 at the empty query over a non-empty rule list. -/
theorem searchRules_no_tokens_witness :
    tokenizeQuery "".toList = [] ∧
    searchRules [codingStyleRule, php80Rule] "".toList none = [] :=
  ⟨by decide, searchRules_no_tokens [codingStyleRule, php80Rule] none "".toList (by decide)⟩

/-! ## C3: category filtering is exact on normalized names. -/

/-- C3: `filterRulesByRuleSet` returns exactly the rules whose normalized
`ruleSet` equals the normalized query (normalization being lowercasing plus
collapsing separator runs to one hyphen, see `normalizeRuleSetName`),
preserves input order (the result is a sublist of the input), and the
queries `Code Quality`, `code_quality` and `code-quality` select the same
rules. -/
theorem filterRulesByRuleSet_exact (rules : List Rule) (q : List Char) :
    (filterRulesByRuleSet rules q).Sublist rules ∧
    (∀ r : Rule, r ∈ filterRulesByRuleSet rules q ↔
      r ∈ rules ∧ normalizeRuleSetName r.ruleSet = normalizeRuleSetName q) ∧
    filterRulesByRuleSet rules ("Code Quality".toList) =
      filterRulesByRuleSet rules ("code_quality".toList) ∧
    filterRulesByRuleSet rules ("code_quality".toList) =
      filterRulesByRuleSet rules ("code-quality".toList) := by
  refine ⟨List.filter_sublist _, fun r => ?_, ?_, ?_⟩
  · simp [filterRulesByRuleSet, List.mem_filter]
  · simp only [filterRulesByRuleSet]
    rw [show normalizeRuleSetName ("Code Quality".toList) =
        normalizeRuleSetName ("code_quality".toList) from by decide]
  · simp only [filterRulesByRuleSet]
    rw [show normalizeRuleSetName ("code_quality".toList) =
        normalizeRuleSetName ("code-quality".toList) from by decide]

/-! ## C4: the `php-8-0` query against a `PHP 8.0` rule set. -/

/-- C4 counterexample: for the rule set literally named `PHP 8.0`,
normalization yields `php-8.0` (the period is not a separator), which
differs from `php-8-0`, and the filter call the claim describes returns
nothing rather than the rule. -/
theorem php80_filter_counterexample :
    normalizeRuleSetName ("PHP 8.0".toList) ≠ normalizeRuleSetName ("php-8-0".toList) ∧
    filterRulesByRuleSet [php80Rule] ("php-8-0".toList) = [] := by
  decide

/-- C4 (amended): normalization maps `PHP 8.0` to `php-8.0` and leaves
`php-8-0` unchanged, so the two normal forms differ and
`filterRulesByRuleSet(rules, "php-8-0")` does not return the rule; a
separator variant of the actual name such as `php_8.0` does return it. -/
theorem php80_filter_amended :
    filterRulesByRuleSet [php80Rule] ("php-8-0".toList) = [] ∧
    filterRulesByRuleSet [php80Rule] ("php_8.0".toList) = [php80Rule] ∧
    normalizeRuleSetName ("PHP 8.0".toList) = "php-8.0".toList ∧
    normalizeRuleSetName ("php-8-0".toList) = "php-8-0".toList := by
  decide

/-! ## C7: `extractRuleSetMetadata`. -/

/-- C7 counterexample: on the non-empty filtered list `[php80Rule]` the
function yields a `RuleSet`, but its `name` is the normalized category
`php-8.0`, not the first rule's raw `ruleSet` value `PHP 8.0` as the claim
states. -/
theorem extractRuleSetMetadata_counterexample :
    (extractRuleSetMetadata [php80Rule] ("PHP 8.0".toList)).isSome = true ∧
    (extractRuleSetMetadata [php80Rule] ("PHP 8.0".toList)).map RuleSet.name ≠
      some php80Rule.ruleSet := by
  decide

/-- C7 (amended): `extractRuleSetMetadata(filteredRules, q)` yields nothing
exactly when `filteredRules` is empty; otherwise it yields a `RuleSet`
built from the first filtered rule's `ruleSet`, whose `name` is the
normalized form of that value (the raw value appearing as `displayName`)
and whose `ruleCount` equals the filtered list's length. -/
theorem extractRuleSetMetadata_amended (rules : List Rule) (q : List Char) :
    (extractRuleSetMetadata rules q = none ↔ rules = []) ∧
    (∀ (r : Rule) (rest : List Rule), rules = r :: rest →
      extractRuleSetMetadata rules q =
        some { name := normalizeRuleSetName r.ruleSet
               displayName := r.ruleSet
               description := some ("Rules for ".toList ++ r.ruleSet)
               ruleCount := rules.length }) := by
  constructor
  · cases rules <;> simp [extractRuleSetMetadata]
  · intro r rest h
    subst h
    rfl

/-! ## C1: load failure with and without a prior snapshot. -/

/-- C1: on a failed load (the cache reference being unset, so a load
actually runs): if the internal state holds a prior snapshot with non-empty
rules, `getRules`/`getRuleSets` answer with exactly that snapshot's rules
and rule sets — also on subsequent calls, whatever their fetch outcome —
the status becomes `error`, and no error is raised; if no prior snapshot
exists, the same error propagates unchanged to the caller and the cache
reference stays unset. -/
theorem cache_load_failure (s : RectorCacheSt) (e : List Char) (now now2 : Nat)
    (f2 : FetchOutcome) (hc : s.cache = none) :
    (s.state.rules ≠ [] →
      (getRules (.error e) now s).1 = .ok s.state.rules ∧
      (getRuleSets (.error e) now s).1 = .ok s.state.ruleSets ∧
      getStatus (getRules (.error e) now s).2 = .error ∧
      (getRules f2 now2 (getRules (.error e) now s).2).1 = .ok s.state.rules ∧
      (getRuleSets f2 now2 (getRules (.error e) now s).2).1 = .ok s.state.ruleSets) ∧
    (s.state.rules = [] →
      (getRules (.error e) now s).1 = .error e ∧
      (getRules (.error e) now s).2.cache = none ∧
      (getRuleSets (.error e) now s).1 = .error e ∧
      (getRuleSets (.error e) now s).2.cache = none) := by
  constructor
  · intro hr
    have hlen : 0 < s.state.rules.length := List.length_pos.mpr hr
    simp [getRules, getRuleSets, ensureLoaded, loadData, getStatus, hc, hlen]
  · intro hr
    have hlen : ¬ 0 < s.state.rules.length := by simp [hr]
    simp [getRules, getRuleSets, ensureLoaded, loadData, hc, hlen]

/-- Witness for C1 at a state holding a stale snapshot, and at the fresh
initial state (which has no snapshot). -/
theorem cache_load_failure_witness :
    (staleCacheSt.cache = none ∧
      ((staleCacheSt.state.rules ≠ [] →
        (getRules (.error "down".toList) 7 staleCacheSt).1 = .ok staleCacheSt.state.rules ∧
        (getRuleSets (.error "down".toList) 7 staleCacheSt).1 = .ok staleCacheSt.state.ruleSets ∧
        getStatus (getRules (.error "down".toList) 7 staleCacheSt).2 = .error ∧
        (getRules (.ok "".toList) 9 (getRules (.error "down".toList) 7 staleCacheSt).2).1 =
          .ok staleCacheSt.state.rules ∧
        (getRuleSets (.ok "".toList) 9 (getRules (.error "down".toList) 7 staleCacheSt).2).1 =
          .ok staleCacheSt.state.ruleSets) ∧
      (staleCacheSt.state.rules = [] →
        (getRules (.error "down".toList) 7 staleCacheSt).1 = .error "down".toList ∧
        (getRules (.error "down".toList) 7 staleCacheSt).2.cache = none ∧
        (getRuleSets (.error "down".toList) 7 staleCacheSt).1 = .error "down".toList ∧
        (getRuleSets (.error "down".toList) 7 staleCacheSt).2.cache = none))) := by
  exact ⟨rfl, cache_load_failure staleCacheSt ("down".toList) 7 9 (.ok "".toList) rfl⟩

/-! ## C9: through the public interface the stale-data fallback is dead. -/

/-- Each public operation preserves the coupling between the cache
reference and the internal state: when `cache` is unset, the internal
rules list is empty. -/
theorem applyOp_preserves_inv (s : RectorCacheSt) (op : CacheOp)
    (h : s.cache = none → s.state.rules = []) :
    (applyOp s op).cache = none → (applyOp s op).state.rules = [] := by
  cases op with
  | opClear => intro _; rfl
  | opGetRules f n =>
    cases hc : s.cache with
    | some d => simp [applyOp, getRules, hc]
    | none =>
      have hr : s.state.rules = [] := h hc
      cases f with
      | ok md => simp [applyOp, getRules, ensureLoaded, loadData, hc]
      | error e => simp [applyOp, getRules, ensureLoaded, loadData, hc, hr]
  | opGetRuleSets f n =>
    cases hc : s.cache with
    | some d => simp [applyOp, getRuleSets, hc]
    | none =>
      have hr : s.state.rules = [] := h hc
      cases f with
      | ok md => simp [applyOp, getRuleSets, ensureLoaded, loadData, hc]
      | error e => simp [applyOp, getRuleSets, ensureLoaded, loadData, hc, hr]

/-- The coupling invariant holds in every reachable state. -/
theorem runOps_inv (ops : List CacheOp) :
    (runOps ops).cache = none → (runOps ops).state.rules = [] := by
  suffices h : ∀ (s : RectorCacheSt), (s.cache = none → s.state.rules = []) →
      ((ops.foldl applyOp s).cache = none → (ops.foldl applyOp s).state.rules = []) by
    exact h initialCache (fun _ => rfl)
  induction ops with
  | nil => intro s hs; exact hs
  | cons op rest ih =>
    intro s hs
    exact ih (applyOp s op) (applyOp_preserves_inv s op hs)

/-- C9: in every cache state reachable by a sequential run of the public
operations, the cache reference is unset only when the internal rules list
is empty; hence any load that fails in a reachable state records
`hadFallback = false` and rethrows the error — the stale-data fallback
return of `loadData` is never taken through the public interface. -/
theorem cache_fallback_unreachable (ops : List CacheOp) (e : List Char) (now : Nat) :
    ((runOps ops).cache = none → (runOps ops).state.rules = []) ∧
    ((runOps ops).cache = none →
      (loadData (.error e) now (runOps ops)).1 = .error e ∧
      (loadData (.error e) now (runOps ops)).2.lastError =
        some { message := e, timestamp := now, hadFallback := false }) := by
  refine ⟨runOps_inv ops, fun hc => ?_⟩
  have hr : (runOps ops).state.rules = [] := runOps_inv ops hc
  constructor <;> simp [loadData, hr]

/-! ## C2: relevance-ordered, level-stable search output. -/

/-- Inserting an element that is below every element of a front segment
passes over none of it. -/
theorem orderedInsert_append_not_le (x : RuleWithRelevance)
    (A B : List RuleWithRelevance) (hA : ∀ y ∈ A, ¬ relevanceLe x y) :
    List.orderedInsert relevanceLe x (A ++ B) =
      A ++ List.orderedInsert relevanceLe x B := by
  induction A with
  | nil => rfl
  | cons a A ih =>
    have ha : ¬ relevanceLe x a := hA a (List.mem_cons_self a A)
    simp only [List.cons_append, List.orderedInsert, if_neg ha]
    rw [List.append_eq, ih (fun y hy => hA y (List.mem_cons_of_mem a hy))]

/-- Inserting an element that is at or below every element of a list puts
it in front. -/
theorem orderedInsert_all_le (x : RuleWithRelevance)
    (B : List RuleWithRelevance) (hB : ∀ y ∈ B, relevanceLe x y) :
    List.orderedInsert relevanceLe x B = x :: B := by
  cases B with
  | nil => rfl
  | cons b B =>
    simp only [List.orderedInsert, if_pos (hB b (List.mem_cons_self b B))]

/-- The stable sort by relevance is the concatenation of the three level
buckets, each in input order. -/
theorem sortByRelevance_buckets (l : List RuleWithRelevance) :
    sortByRelevance l =
      (l.filter fun x => x.relevance == Relevance.name) ++
      (l.filter fun x => x.relevance == Relevance.description) ++
      (l.filter fun x => x.relevance == Relevance.tag) := by
  induction l with
  | nil => rfl
  | cons x l ih =>
    have rel_of_mem : ∀ (v : Relevance) (y : RuleWithRelevance),
        y ∈ l.filter (fun x => x.relevance == v) → y.relevance = v := by
      intro v y hy
      exact beq_iff_eq.mp (List.mem_filter.mp hy).2
    rw [sortByRelevance] at ih ⊢
    rw [List.insertionSort, ih]
    cases hx : x.relevance with
    | name =>
      rw [orderedInsert_all_le]
      · simp [List.filter_cons, hx]
      · intro y _
        simp [relevanceLe, relevanceOrder, hx]
    | description =>
      rw [List.append_assoc, orderedInsert_append_not_le, orderedInsert_all_le]
      · simp [List.filter_cons, hx]
      · intro y hy
        rcases List.mem_append.mp hy with h1 | h2
        · have := rel_of_mem .description y h1
          simp [relevanceLe, relevanceOrder, hx, this]
        · have := rel_of_mem .tag y h2
          simp [relevanceLe, relevanceOrder, hx, this]
      · intro y hy
        have := rel_of_mem .name y hy
        simp [relevanceLe, relevanceOrder, hx, this]
    | tag =>
      rw [orderedInsert_append_not_le, orderedInsert_all_le]
      · simp [List.filter_cons, hx]
      · intro y hy
        have := rel_of_mem .tag y hy
        simp [relevanceLe, relevanceOrder, hx, this]
      · intro y hy
        rcases List.mem_append.mp hy with h1 | h2
        · have := rel_of_mem .name y h1
          simp [relevanceLe, relevanceOrder, hx, this]
        · have := rel_of_mem .description y h2
          simp [relevanceLe, relevanceOrder, hx, this]

/-- The unsorted match list `searchRules` builds before sorting (empty when
no token survives, matching the early return). -/
def searchCandidates (rules : List Rule) (q : List Char)
    (fo : Option (List Char)) : List RuleWithRelevance :=
  if (tokenizeQuery q).isEmpty then []
  else searchMatches (rulesToSearch rules fo) (tokenizeQuery q)

/-- What a relevance annotation produced by the search loop means, in terms
of the per-level match predicates: the annotation is the first level (name,
then description, then joined tags) at which the rule matches all tokens. -/
theorem ruleRelevance_spec (rule : Rule) (tokens : List (List Char))
    (rel : Relevance) (h : ruleRelevance rule tokens = some rel) :
    (rel = Relevance.name ↔ matchesAllTokens rule.name tokens = true) ∧
    (rel = Relevance.description ↔
      (matchesAllTokens rule.name tokens = false ∧
       matchesAllTokens rule.description tokens = true)) ∧
    (rel = Relevance.tag ↔
      (matchesAllTokens rule.name tokens = false ∧
       matchesAllTokens rule.description tokens = false ∧
       ∃ tags, rule.tags = some tags ∧
         matchesAllTokens (joinSpace tags) tokens = true)) := by
  unfold ruleRelevance at h
  by_cases h1 : matchesAllTokens rule.name tokens = true
  · simp only [h1, if_true] at h
    obtain rfl : Relevance.name = rel := Option.some.inj h
    simp [h1]
  · have h1f : matchesAllTokens rule.name tokens = false := by
      simpa using h1
    simp only [h1f, Bool.false_eq_true, if_false] at h
    by_cases h2 : matchesAllTokens rule.description tokens = true
    · simp only [h2, if_true] at h
      obtain rfl : Relevance.description = rel := Option.some.inj h
      simp [h1f, h2]
    · have h2f : matchesAllTokens rule.description tokens = false := by
        simpa using h2
      simp only [h2f, Bool.false_eq_true, if_false] at h
      cases htags : rule.tags with
      | none => rw [htags] at h; exact absurd h (by simp)
      | some tags =>
        rw [htags] at h
        by_cases h3 : matchesAllTokens (joinSpace tags) tokens = true
        · simp only [h3, if_true] at h
          obtain rfl : Relevance.tag = rel := Option.some.inj h
          refine ⟨by simp [h1f], by simp [h1f, h2f], ?_⟩
          simp only [htags, true_iff, iff_true]
          exact ⟨h1f, h2f, tags, rfl, h3⟩
        · simp only [h3, Bool.false_eq_true, if_false] at h
          exact absurd h (by simp)

/-- C2: the search output is exactly the name-level matches, then the
description-level matches, then the tag-level matches, each bucket keeping
the unsorted match list's (and hence the input's) relative order; every
returned rule is annotated with the first level at which it matched all
tokens, and a rule matching at no level never appears. -/
theorem searchRules_relevance_order (rules : List Rule) (q : List Char)
    (fo : Option (List Char)) :
    searchRules rules q fo =
      ((searchCandidates rules q fo).filter fun x => x.relevance == Relevance.name) ++
      ((searchCandidates rules q fo).filter fun x => x.relevance == Relevance.description) ++
      ((searchCandidates rules q fo).filter fun x => x.relevance == Relevance.tag) ∧
    (∀ x ∈ searchRules rules q fo,
      (x.relevance = Relevance.name ↔
        matchesAllTokens x.name (tokenizeQuery q) = true) ∧
      (x.relevance = Relevance.description ↔
        (matchesAllTokens x.name (tokenizeQuery q) = false ∧
         matchesAllTokens x.description (tokenizeQuery q) = true)) ∧
      (x.relevance = Relevance.tag ↔
        (matchesAllTokens x.name (tokenizeQuery q) = false ∧
         matchesAllTokens x.description (tokenizeQuery q) = false ∧
         ∃ tags, x.tags = some tags ∧
           matchesAllTokens (joinSpace tags) (tokenizeQuery q) = true))) := by
  constructor
  · by_cases he : (tokenizeQuery q).isEmpty
    · simp [searchRules, searchCandidates, he]
    · rw [searchRules, searchCandidates]
      simp only [he, Bool.false_eq_true, if_false]
      exact sortByRelevance_buckets _
  · intro x hx
    have hx2 : x ∈ searchMatches (rulesToSearch rules fo) (tokenizeQuery q) := by
      rw [searchRules] at hx
      by_cases he : (tokenizeQuery q).isEmpty
      · simp [he] at hx
      · simp only [he, Bool.false_eq_true, if_false, sortByRelevance,
          List.mem_insertionSort] at hx
        exact hx
    rw [searchMatches, List.mem_filterMap] at hx2
    obtain ⟨rule, _, hmap⟩ := hx2
    cases hrel : ruleRelevance rule (tokenizeQuery q) with
    | none => rw [hrel] at hmap; exact absurd hmap (by simp)
    | some rel =>
      rw [hrel] at hmap
      simp only [Option.map_some'] at hmap
      obtain rfl := Option.some.inj hmap
      exact ruleRelevance_spec rule (tokenizeQuery q) rel hrel

/-! ## C6: rule-set derivation counts. -/

/-- The increment step of `insertRule` does not change an entry's name. -/
theorem bump_name (c : List Char) (s : RuleSet) :
    (if s.name == c then { s with ruleCount := s.ruleCount + 1 } else s).name = s.name := by
  split <;> rfl

/-- Filtering by name commutes with the increment map of `insertRule`. -/
theorem filter_bump (acc : List RuleSet) (c n : List Char) :
    ((acc.map fun s =>
        if s.name == c then { s with ruleCount := s.ruleCount + 1 } else s).filter
      fun s => s.name == n) =
    (acc.filter fun s => s.name == n).map fun s =>
      if s.name == c then { s with ruleCount := s.ruleCount + 1 } else s := by
  induction acc with
  | nil => rfl
  | cons a acc ih =>
    simp only [List.map_cons, List.filter_cons, bump_name]
    by_cases h : (a.name == n) = true
    · simp only [h, if_true, List.map_cons]
      rw [ih]
    · simp only [h, Bool.false_eq_true, if_false]
      rw [ih]

/-- The increment map of `insertRule` is the identity on a list with no
entry of the bumped category. -/
theorem map_bump_id (c : List Char) (l : List RuleSet)
    (hl : ∀ s ∈ l, ¬ (s.name == c) = true) :
    (l.map fun s =>
      if s.name == c then { s with ruleCount := s.ruleCount + 1 } else s) = l := by
  induction l with
  | nil => rfl
  | cons a l ihl =>
    rw [List.map_cons, if_neg (hl a (List.mem_cons_self a l)),
      ihl fun s hs => hl s (List.mem_cons_of_mem a hs)]

/-- Under name-uniqueness, filtering entries by a name gives nothing or a
single entry. -/
theorem filter_name_cases (acc : List RuleSet) (n : List Char)
    (h : (acc.map RuleSet.name).Nodup) :
    acc.filter (fun s => s.name == n) = [] ∨
      ∃ s, acc.filter (fun s => s.name == n) = [s] := by
  induction acc with
  | nil => exact Or.inl rfl
  | cons a acc ih =>
    simp only [List.map_cons, List.nodup_cons] at h
    obtain ⟨hna, hnd⟩ := h
    rcases ih hnd with h0 | ⟨s, hs⟩
    · by_cases ha : (a.name == n) = true
      · exact Or.inr ⟨a, by simp [List.filter_cons, ha, h0]⟩
      · exact Or.inl (by simp [List.filter_cons, ha, h0])
    · by_cases ha : (a.name == n) = true
      · exfalso
        have hsmem : s ∈ acc.filter (fun s => s.name == n) := by
          rw [hs]; exact List.mem_singleton_self s
        have h1 := List.mem_filter.mp hsmem
        refine hna (List.mem_map.mpr ⟨s, h1.1, ?_⟩)
        rw [beq_iff_eq.mp h1.2, beq_iff_eq.mp ha]
      · exact Or.inr ⟨s, by simp only [List.filter_cons, ha, Bool.false_eq_true,
          if_false, hs]⟩

/-- `insertRule` keeps entry names unique. -/
theorem insertRule_names_nodup (acc : List RuleSet) (r : Rule)
    (h : (acc.map RuleSet.name).Nodup) :
    ((insertRule acc r).map RuleSet.name).Nodup := by
  have hmap : ∀ l : List RuleSet,
      ((l.map fun s =>
          if s.name == r.ruleSet then { s with ruleCount := s.ruleCount + 1 } else s).map
        RuleSet.name) = l.map RuleSet.name := by
    intro l
    rw [List.map_map]
    exact List.map_congr_left fun s _ => bump_name r.ruleSet s
  unfold insertRule
  by_cases hp : acc.any (fun s => s.name == r.ruleSet) = true
  · simp only [hp, if_true, hmap]
    exact h
  · simp only [hp, Bool.false_eq_true, if_false, hmap]
    rw [List.map_append]
    simp only [List.map_cons, List.map_nil]
    rw [List.nodup_append]
    refine ⟨h, List.nodup_singleton _, ?_⟩
    intro x hx
    simp only [List.mem_singleton]
    intro hxr
    subst hxr
    obtain ⟨s, hsmem, hsname⟩ := List.mem_map.mp hx
    rw [Bool.not_eq_true, List.any_eq_false] at hp
    exact hp s hsmem (beq_iff_eq.mpr hsname)

/-- `insertRule` leaves the entries of other names untouched. -/
theorem insertRule_filter_other (acc : List RuleSet) (r : Rule) (n : List Char)
    (hne : n ≠ r.ruleSet) :
    (insertRule acc r).filter (fun s => s.name == n) =
      acc.filter (fun s => s.name == n) := by
  have hmem : ∀ s ∈ acc.filter (fun s => s.name == n), ¬ (s.name == r.ruleSet) = true := by
    intro s hs
    have h1 : s.name = n := beq_iff_eq.mp (List.mem_filter.mp hs).2
    rw [h1]
    intro habs
    exact hne (beq_iff_eq.mp habs)
  unfold insertRule
  by_cases hp : acc.any (fun s => s.name == r.ruleSet) = true
  · simp only [hp, if_true, filter_bump]
    exact map_bump_id r.ruleSet _ hmem
  · simp only [hp, Bool.false_eq_true, if_false, filter_bump]
    rw [List.filter_append]
    have hnew : List.filter (fun s => s.name == n)
        [({ name := r.ruleSet, displayName := formatDisplayName r.ruleSet,
            ruleCount := 0 } : RuleSet)] = [] := by
      simp only [List.filter_cons, List.filter_nil]
      rw [if_neg]
      intro habs
      exact hne (beq_iff_eq.mp habs).symm
    rw [hnew, List.append_nil]
    exact map_bump_id r.ruleSet _ hmem

/-- `insertRule` on a category with no entry yet creates its entry with
count one. -/
theorem insertRule_filter_new (acc : List RuleSet) (r : Rule)
    (h0 : acc.filter (fun s => s.name == r.ruleSet) = []) :
    (insertRule acc r).filter (fun s => s.name == r.ruleSet) =
      [{ name := r.ruleSet, displayName := formatDisplayName r.ruleSet,
         ruleCount := 1 }] := by
  unfold insertRule
  have hp : acc.any (fun s => s.name == r.ruleSet) = false := by
    rw [List.any_eq_false]
    intro s hs
    exact (List.filter_eq_nil_iff.mp h0) s hs
  simp only [hp, Bool.false_eq_true, if_false, filter_bump, List.filter_append, h0,
    List.nil_append]
  simp [List.filter_cons]

/-- `insertRule` on a category with an entry bumps exactly that entry. -/
theorem insertRule_filter_bump (acc : List RuleSet) (r : Rule) (s : RuleSet)
    (hs : acc.filter (fun t => t.name == r.ruleSet) = [s]) :
    (insertRule acc r).filter (fun t => t.name == r.ruleSet) =
      [{ s with ruleCount := s.ruleCount + 1 }] := by
  have hsmem : s ∈ acc.filter (fun t => t.name == r.ruleSet) := by
    rw [hs]; exact List.mem_singleton_self s
  have h1 := List.mem_filter.mp hsmem
  have hp : acc.any (fun t => t.name == r.ruleSet) = true :=
    List.any_eq_true.mpr ⟨s, h1.1, h1.2⟩
  unfold insertRule
  simp only [hp, if_true, filter_bump, hs, List.map_cons, List.map_nil]
  rw [if_pos h1.2]

/-- The grouping fold: the entry of a name accumulates exactly the number
of rules of that category, starting from the accumulator's entry if any. -/
theorem foldl_insertRule_filter (rules : List Rule) (acc : List RuleSet)
    (n : List Char) (hnd : (acc.map RuleSet.name).Nodup) :
    (rules.foldl insertRule acc).filter (fun s => s.name == n) =
      match acc.filter (fun s => s.name == n) with
      | s :: _ => [{ s with ruleCount := s.ruleCount + rules.countP (fun x => x.ruleSet == n) }]
      | [] =>
        if rules.countP (fun x => x.ruleSet == n) = 0 then []
        else [{ name := n, displayName := formatDisplayName n,
                ruleCount := rules.countP (fun x => x.ruleSet == n) }] := by
  induction rules generalizing acc with
  | nil =>
    rcases filter_name_cases acc n hnd with h0 | ⟨s, hs⟩
    · simp [h0, List.countP_nil]
    · simp [hs, List.countP_nil]
  | cons r rs ih =>
    have hnd2 := insertRule_names_nodup acc r hnd
    have step := ih (insertRule acc r) hnd2
    rw [List.foldl_cons]
    by_cases hcat : r.ruleSet = n
    · subst hcat
      have hcount : rs.countP (fun x => x.ruleSet == r.ruleSet) + 1 =
          (r :: rs).countP (fun x => x.ruleSet == r.ruleSet) := by
        rw [List.countP_cons]
        simp
      rcases filter_name_cases acc r.ruleSet hnd with h0 | ⟨s, hs⟩
      · rw [step, insertRule_filter_new acc r h0, h0, ← hcount,
          if_neg (Nat.succ_ne_zero _)]
        simp [Nat.add_comm]
      · rw [step, insertRule_filter_bump acc r s hs, hs, ← hcount]
        simp only [List.cons.injEq, and_true]
        congr 1
        omega
    · have hne : n ≠ r.ruleSet := fun h => hcat h.symm
      have hcount : rs.countP (fun x => x.ruleSet == n) =
          (r :: rs).countP (fun x => x.ruleSet == n) := by
        rw [List.countP_cons]
        simp [hcat]
      rw [step, insertRule_filter_other acc r n hne, hcount]

/-- Every entry the grouping fold produces has a positive count. -/
theorem foldl_insertRule_pos (rules : List Rule) (acc : List RuleSet)
    (h : ∀ s ∈ acc, s.ruleCount ≠ 0) :
    ∀ s ∈ rules.foldl insertRule acc, s.ruleCount ≠ 0 := by
  induction rules generalizing acc with
  | nil => exact h
  | cons r rs ih =>
    rw [List.foldl_cons]
    refine ih (insertRule acc r) ?_
    intro s hs
    unfold insertRule at hs
    rcases List.mem_map.mp hs with ⟨t, htmem, hteq⟩
    subst hteq
    by_cases hb : (t.name == r.ruleSet) = true
    · simp [hb]
    · simp only [hb, Bool.false_eq_true, if_false]
      have htacc : t ∈ acc := by
        by_cases hp : acc.any (fun u => u.name == r.ruleSet) = true
        · simpa [hp] using htmem
        · simp only [hp, Bool.false_eq_true, if_false, List.mem_append,
            List.mem_singleton] at htmem
          rcases htmem with h1 | h1
          · exact h1
          · exfalso
            apply hb
            rw [h1]
            exact beq_self_eq_true _
      exact h t htacc

/-- C6: for every rule `r` of the collection, `deriveRuleSets` contains
exactly one `RuleSet` named `r.ruleSet` (the filter by that name is a
one-element list), its `ruleCount` is the number of rules sharing that
`ruleSet`, and no rule set with count zero ever appears. -/
theorem deriveRuleSets_counts (rules : List Rule) (r : Rule) (hr : r ∈ rules) :
    (deriveRuleSets rules).filter (fun s => s.name == r.ruleSet) =
      [{ name := r.ruleSet, displayName := formatDisplayName r.ruleSet,
         ruleCount := rules.countP (fun x => x.ruleSet == r.ruleSet) }] ∧
    (∀ s ∈ deriveRuleSets rules, s.ruleCount ≠ 0) := by
  have hfold := foldl_insertRule_filter rules [] r.ruleSet (by simp)
  simp only [List.filter_nil] at hfold
  have hpos : ¬ rules.countP (fun x => x.ruleSet == r.ruleSet) = 0 := by
    have : 0 < rules.countP (fun x => x.ruleSet == r.ruleSet) :=
      List.countP_pos_iff.mpr ⟨r, hr, beq_iff_eq.mpr rfl⟩
    omega
  rw [if_neg hpos] at hfold
  constructor
  · have hperm : List.Perm (deriveRuleSets rules) (rules.foldl insertRule []) :=
      List.perm_insertionSort ruleSetLe _
    have h2 := hperm.filter (fun s => s.name == r.ruleSet)
    exact List.perm_singleton.mp (hfold ▸ h2)
  · intro s hs
    have hsmem : s ∈ rules.foldl insertRule [] := by
      rw [deriveRuleSets] at hs
      exact (List.mem_insertionSort ruleSetLe).mp hs
    exact foldl_insertRule_pos rules [] (by simp) s hsmem

/-! ## C5: the parser only materializes validated rules. -/

/-- A `dropWhile` result never starts with a character satisfying the
predicate. -/
theorem dropWhile_head_false (p : Char → Bool) :
    ∀ (l : List Char) (x : Char) (xs : List Char),
      l.dropWhile p = x :: xs → p x = false := by
  intro l
  induction l with
  | nil => intro x xs h; cases h
  | cons a l ih =>
    intro x xs h
    rw [List.dropWhile_cons] at h
    by_cases ha : p a = true
    · rw [if_pos ha] at h
      exact ih x xs h
    · rw [if_neg ha] at h
      injection h with h1 _
      subst h1
      rwa [Bool.not_eq_true] at ha

/-- `dropWhile` is idempotent. -/
theorem dropWhile_idem (p : Char → Bool) (l : List Char) :
    (l.dropWhile p).dropWhile p = l.dropWhile p := by
  cases hd : l.dropWhile p with
  | nil => rfl
  | cons x xs =>
    rw [List.dropWhile_cons]
    simp [dropWhile_head_false p l x xs hd]

/-- `jsTrim` is idempotent: a trimmed string trims to itself. -/
theorem jsTrim_idem (cs : List Char) : jsTrim (jsTrim cs) = jsTrim cs := by
  unfold jsTrim
  have hsplit := List.takeWhile_append_dropWhile isJsWs (cs.dropWhile isJsWs).reverse
  have h1 : ((cs.dropWhile isJsWs).reverse.dropWhile isJsWs).reverse.dropWhile isJsWs =
      ((cs.dropWhile isJsWs).reverse.dropWhile isJsWs).reverse := by
    cases hrr : ((cs.dropWhile isJsWs).reverse.dropWhile isJsWs).reverse with
    | nil => rfl
    | cons x xs =>
      have hxA : cs.dropWhile isJsWs =
          x :: (xs ++ ((cs.dropWhile isJsWs).reverse.takeWhile isJsWs).reverse) := by
        have hA : cs.dropWhile isJsWs =
            ((cs.dropWhile isJsWs).reverse.dropWhile isJsWs).reverse ++
              ((cs.dropWhile isJsWs).reverse.takeWhile isJsWs).reverse := by
          calc cs.dropWhile isJsWs
              = (cs.dropWhile isJsWs).reverse.reverse := (List.reverse_reverse _).symm
            _ = (((cs.dropWhile isJsWs).reverse.takeWhile isJsWs) ++
                  ((cs.dropWhile isJsWs).reverse.dropWhile isJsWs)).reverse := by
                rw [hsplit]
            _ = ((cs.dropWhile isJsWs).reverse.dropWhile isJsWs).reverse ++
                  ((cs.dropWhile isJsWs).reverse.takeWhile isJsWs).reverse := by
                rw [List.reverse_append]
        rw [hrr] at hA
        simpa using hA
      have hx : isJsWs x = false := dropWhile_head_false isJsWs cs x _ hxA
      rw [List.dropWhile_cons]
      simp [hx]
  rw [h1, List.reverse_reverse, dropWhile_idem]

/-- `validateRule` only accepts candidates whose name, description and
category are non-empty after trimming, and the fields of the rule it
builds stay non-empty after (re)trimming. -/
theorem validateRule_fields (raw : RawRule) (r : Rule)
    (h : validateRule raw = some r) :
    jsTrim r.name ≠ [] ∧ jsTrim r.description ≠ [] ∧ jsTrim r.ruleSet ≠ [] := by
  obtain ⟨nameF, descF, catF, cpF, cfgF⟩ := raw
  cases nameF with
  | none => simp [validateRule] at h
  | some n =>
  cases descF with
  | none => simp [validateRule] at h
  | some d =>
  cases catF with
  | none => simp [validateRule] at h
  | some c =>
  rw [validateRule] at h
  dsimp only at h
  by_cases hg : ((jsTrim n).isEmpty || (jsTrim d).isEmpty || (jsTrim c).isEmpty) = true
  · rw [if_pos hg] at h
    cases h
  · rw [if_neg hg] at h
    obtain rfl := Option.some.inj h
    simp only [Bool.or_eq_true, not_or] at hg
    obtain ⟨⟨h1, h2⟩, h3⟩ := hg
    refine ⟨?_, ?_, ?_⟩
    · show jsTrim (jsTrim n) ≠ []
      rw [jsTrim_idem]
      intro habs
      exact h1 (by rw [habs]; rfl)
    · show jsTrim (jsTrim d) ≠ []
      rw [jsTrim_idem]
      intro habs
      exact h2 (by rw [habs]; rfl)
    · show jsTrim (jsTrim c) ≠ []
      rw [jsTrim_idem]
      intro habs
      exact h3 (by rw [habs]; rfl)

/-- Fold invariant: everything a validated-append fold adds passed
`validateRule`. -/
theorem mem_foldl_validated {β : Type} (step : List Rule → β → List Rule)
    (hstep : ∀ (acc : List Rule) (b : β) (r : Rule),
      r ∈ step acc b → r ∈ acc ∨ ∃ raw, validateRule raw = some r) :
    ∀ (l : List β) (acc : List Rule) (r : Rule),
      r ∈ l.foldl step acc → r ∈ acc ∨ ∃ raw, validateRule raw = some r := by
  intro l
  induction l with
  | nil => intro acc r h; exact Or.inl h
  | cons b l ih =>
    intro acc r h
    rcases ih (step acc b) r h with h1 | h1
    · exact hstep acc b r h1
    · exact Or.inr h1

/-- Everything `parseSection` adds passed `validateRule`. -/
theorem parseSection_validated (acc : List Rule) (sec : List Char) (r : Rule)
    (h : r ∈ parseSection acc sec) :
    r ∈ acc ∨ ∃ raw, validateRule raw = some r := by
  rw [parseSection] at h
  by_cases hcat : (jsTrim (splitOnSeq ['\n'] sec).headI == ("Categories".toList)) = true
  · rw [if_pos hcat] at h
    exact Or.inl h
  · rw [if_neg hcat] at h
    refine mem_foldl_validated _ ?_ _ _ _ h
    intro acc2 t r2 hmem
    cases hpc : parseRuleChunk (jsTrim (splitOnSeq ['\n'] sec).headI) t with
    | none =>
      rw [hpc] at hmem
      exact Or.inl hmem
    | some rule =>
      rw [hpc] at hmem
      rcases List.mem_append.mp hmem with h1 | h1
      · exact Or.inl h1
      · rw [List.mem_singleton] at h1
        subst h1
        unfold parseRuleChunk at hpc
        exact Or.inr ⟨_, hpc⟩

/-- C5: every rule `parseRectorMarkdown` outputs has a name, description
and rule set that are non-empty after trimming — candidates failing this
are dropped by `validateRule` and never appear. -/
theorem parseRectorMarkdown_validated (md : List Char) (r : Rule)
    (h : r ∈ parseRectorMarkdown md) :
    jsTrim r.name ≠ [] ∧ jsTrim r.description ≠ [] ∧ jsTrim r.ruleSet ≠ [] := by
  rw [parseRectorMarkdown] at h
  rcases mem_foldl_validated parseSection
      (fun acc sec r2 hm => parseSection_validated acc sec r2 hm) _ _ _ h with
    h1 | ⟨raw, hraw⟩
  · cases h1
  · exact validateRule_fields raw r hraw

/-- Witness for C5 on the repository's own test document. -/
theorem parseRectorMarkdown_validated_witness :
    (codingStyleParsedRule ∈ parseRectorMarkdown testMarkdown ∧
      (jsTrim codingStyleParsedRule.name ≠ [] ∧
       jsTrim codingStyleParsedRule.description ≠ [] ∧
       jsTrim codingStyleParsedRule.ruleSet ≠ [])) :=
  ⟨by decide, parseRectorMarkdown_validated testMarkdown codingStyleParsedRule (by decide)⟩

/-- Witness for C6 over a two-category collection. -/
theorem deriveRuleSets_counts_witness :
    php80Rule ∈ [codingStyleRule, php80Rule] ∧
    ((deriveRuleSets [codingStyleRule, php80Rule]).filter
        (fun s => s.name == php80Rule.ruleSet) =
      [{ name := php80Rule.ruleSet, displayName := formatDisplayName php80Rule.ruleSet,
         ruleCount := [codingStyleRule, php80Rule].countP
           (fun x => x.ruleSet == php80Rule.ruleSet) }] ∧
    (∀ s ∈ deriveRuleSets [codingStyleRule, php80Rule], s.ruleCount ≠ 0)) :=
  ⟨by decide, deriveRuleSets_counts [codingStyleRule, php80Rule] php80Rule (by decide)⟩

/-! ## C10: token search versus whole-query-substring search. -/

/-- Boolean equality via the two truth statements. -/
theorem bool_eq_of_iff {a b : Bool} (h : a = true ↔ b = true) : a = b := by
  cases a <;> cases b <;> simp_all

/-- `startsWithSeq` is the leading-segment relation. -/
theorem startsWithSeq_iff (p : List Char) :
    ∀ l : List Char, startsWithSeq p l = true ↔ ∃ t, p ++ t = l := by
  induction p with
  | nil =>
    intro l
    simp only [startsWithSeq, List.nil_append, true_iff]
    exact ⟨l, rfl⟩
  | cons a p ih =>
    intro l
    cases l with
    | nil =>
      simp only [startsWithSeq, Bool.false_eq_true, false_iff]
      rintro ⟨t, ht⟩
      cases ht
    | cons b l =>
      rw [startsWithSeq]
      simp only [Bool.and_eq_true, beq_iff_eq, ih l]
      constructor
      · rintro ⟨rfl, t, rfl⟩
        exact ⟨t, rfl⟩
      · rintro ⟨t, ht⟩
        rw [List.cons_append] at ht
        injection ht with h1 h2
        exact ⟨h1, t, h2⟩

/-- A space-free segment leads a list with a space boundary exactly when it
leads the part before the space. -/
theorem leads_space_boundary (q : List Char) (hq : q ≠ []) (hsp : ' ' ∉ q) :
    ∀ a b : List Char, ((∃ t, q ++ t = a ++ ' ' :: b) ↔ (∃ t, q ++ t = a)) := by
  intro a
  induction a generalizing q with
  | nil =>
    intro b
    constructor
    · rintro ⟨t, ht⟩
      cases q with
      | nil => exact absurd rfl hq
      | cons x q2 =>
        rw [List.nil_append, List.cons_append] at ht
        injection ht with h1 _
        exact absurd (h1 ▸ List.mem_cons_self x q2) hsp
    · rintro ⟨t, ht⟩
      exfalso
      cases q with
      | nil => exact hq rfl
      | cons x q2 => cases ht
  | cons c a ih =>
    intro b
    constructor
    · rintro ⟨t, ht⟩
      cases q with
      | nil => exact absurd rfl hq
      | cons x q2 =>
        rw [List.cons_append, List.cons_append] at ht
        injection ht with h1 h2
        subst h1
        by_cases hq2 : q2 = []
        · subst hq2
          exact ⟨a, by rw [List.cons_append, List.nil_append]⟩
        · have hsp2 : ' ' ∉ q2 := fun hm => hsp (List.mem_cons_of_mem _ hm)
          obtain ⟨t2, ht2⟩ := (ih q2 hq2 hsp2 b).mp ⟨t, h2⟩
          exact ⟨t2, by rw [List.cons_append, ht2]⟩
    · rintro ⟨t, ht⟩
      refine ⟨t ++ ' ' :: b, ?_⟩
      rw [← List.append_assoc, ht, List.cons_append]

/-- Occurrence of a space-free segment splits at a space boundary. -/
theorem containsSeq_append_space (q : List Char) (hq : q ≠ []) (hsp : ' ' ∉ q) :
    ∀ a b : List Char,
      containsSeq q (a ++ ' ' :: b) = (containsSeq q a || containsSeq q b) := by
  intro a
  induction a with
  | nil =>
    intro b
    rw [List.nil_append,
      show containsSeq q (' ' :: b) =
        (startsWithSeq q (' ' :: b) || containsSeq q b) from rfl]
    have h1 : startsWithSeq q (' ' :: b) = false := by
      cases hw : startsWithSeq q (' ' :: b)
      · rfl
      · exfalso
        obtain ⟨t, ht⟩ := (startsWithSeq_iff q (' ' :: b)).mp hw
        cases q with
        | nil => exact hq rfl
        | cons x q2 =>
          rw [List.cons_append] at ht
          injection ht with hx _
          exact hsp (hx ▸ List.mem_cons_self x q2)
    have h2 : containsSeq q [] = false := by
      rw [containsSeq]
      cases q with
      | nil => exact absurd rfl hq
      | cons x q2 => rfl
    rw [h1, h2]
  | cons c a ih =>
    intro b
    rw [List.cons_append, containsSeq, containsSeq, ih b]
    have h3 : startsWithSeq q (c :: (a ++ ' ' :: b)) = startsWithSeq q (c :: a) := by
      apply bool_eq_of_iff
      rw [startsWithSeq_iff, startsWithSeq_iff]
      have := leads_space_boundary q hq hsp (c :: a) b
      rwa [List.cons_append] at this
    rw [h3, Bool.or_assoc]

/-- Occurrence of a non-empty space-free segment in a space-join is
occurrence in one of the joined pieces. -/
theorem containsSeq_joinSpace (q : List Char) (hq : q ≠ []) (hsp : ' ' ∉ q) :
    ∀ ts : List (List Char),
      containsSeq q (joinSpace ts) = ts.any fun t => containsSeq q t := by
  intro ts
  induction ts with
  | nil =>
    rw [show joinSpace [] = [] from rfl, List.any_nil, containsSeq]
    cases q with
    | nil => exact absurd rfl hq
    | cons x q2 => rfl
  | cons t ts ih =>
    cases ts with
    | nil => simp [joinSpace]
    | cons t2 ts2 =>
      rw [show joinSpace (t :: t2 :: ts2) = t ++ ' ' :: joinSpace (t2 :: ts2) from rfl]
      rw [containsSeq_append_space q hq hsp t _, ih]
      simp [List.any_cons]

/-- Lowercasing distributes over the space-join. -/
theorem toLowerList_joinSpace (ts : List (List Char)) :
    toLowerList (joinSpace ts) = joinSpace (ts.map toLowerList) := by
  induction ts with
  | nil => rfl
  | cons t ts ih =>
    cases ts with
    | nil => rfl
    | cons t2 ts2 =>
      rw [show joinSpace (t :: t2 :: ts2) = t ++ ' ' :: joinSpace (t2 :: ts2) from rfl,
        List.map_cons,
        show joinSpace (toLowerList t :: (t2 :: ts2).map toLowerList) =
          toLowerList t ++ ' ' :: joinSpace ((t2 :: ts2).map toLowerList) from ?_,
        ← ih]
      · rw [toLowerList, List.map_append, List.map_cons]
        rfl
      · cases hm : (t2 :: ts2).map toLowerList with
        | nil => cases hm
        | cons u us => rfl

/-- A map that fixes every element of a list is the identity on it. -/
theorem map_fixed_id (f : Char → Char) (l : List Char)
    (h : ∀ c ∈ l, f c = c) : l.map f = l := by
  induction l with
  | nil => rfl
  | cons a l ih =>
    rw [List.map_cons, h a (List.mem_cons_self a l),
      ih fun c hc => h c (List.mem_cons_of_mem a hc)]

/-- Splitting on whitespace is trivial for a non-empty whitespace-free
string. -/
theorem splitJsWsGo_no_ws (cs : List Char) :
    ∀ acc : List Char, (∀ c ∈ cs, isJsWs c = false) → (acc ≠ [] ∨ cs ≠ []) →
      splitJsWsGo cs acc = [acc.reverse ++ cs] := by
  induction cs with
  | nil =>
    intro acc _ hne
    rcases hne with h | h
    · rw [splitJsWsGo, if_neg (by simpa [List.isEmpty_iff] using h)]
      rw [List.append_nil]
    · exact absurd rfl h
  | cons c cs ih =>
    intro acc hws _
    rw [splitJsWsGo]
    rw [hws c (List.mem_cons_self c cs)]
    rw [if_neg (by simp)]
    rw [ih (c :: acc) (fun x hx => hws x (List.mem_cons_of_mem c hx))
      (Or.inl (by simp))]
    rw [List.reverse_cons, List.append_assoc]
    rfl

/-- Tokenizing an all-alphanumeric query of length at least two yields the
single token equal to the lowercased query. -/
theorem tokenizeQuery_alnum (q : List Char) (hlen : 2 ≤ q.length)
    (halnum : ∀ c ∈ q, isAsciiAlphanum c = true) :
    tokenizeQuery q = [toLowerList q] := by
  have hlow : ∀ c ∈ toLowerList q, isLowerAlnum c = true := by
    intro c hc
    obtain ⟨c0, hc0, rfl⟩ := List.mem_map.mp hc
    exact toLower_alnum c0 (halnum c0 hc0)
  have hrep : replaceNonAlnum (toLowerList q) = toLowerList q := by
    unfold replaceNonAlnum
    apply map_fixed_id
    intro c hc
    rw [hlow c hc]
    rfl
  have hlenq : (toLowerList q).length = q.length := List.length_map q Char.toLower
  have hne : toLowerList q ≠ [] := by
    intro habs
    rw [habs] at hlenq
    simp at hlenq
    omega
  have hsplit : splitJsWs (toLowerList q) = [toLowerList q] := by
    rw [splitJsWs, splitJsWsGo_no_ws (toLowerList q) []
      (fun c hc => lowerAlnum_not_ws c (hlow c hc)) (Or.inr hne)]
    rfl
  rw [tokenizeQuery, hrep, hsplit, List.filter_cons, List.filter_nil]
  rw [if_pos]
  rw [decide_eq_true_eq, hlenq]
  omega

/-- With a single token, the all-tokens test is one substring test. -/
theorem matchesAllTokens_singleton (text tok : List Char) :
    matchesAllTokens text [tok] = containsSeq tok (toLowerList text) := by
  simp [matchesAllTokens]

/-- On an all-alphanumeric query of length at least two, the tokenized
relevance of a rule coincides with the substring variant's relevance. -/
theorem ruleRelevance_substring_eq (r : Rule) (q : List Char)
    (hlen : 2 ≤ q.length) (halnum : ∀ c ∈ q, isAsciiAlphanum c = true) :
    ruleRelevance r [toLowerList q] = ruleRelevanceSubstring r q := by
  have hlow : ∀ c ∈ toLowerList q, isLowerAlnum c = true := by
    intro c hc
    obtain ⟨c0, hc0, rfl⟩ := List.mem_map.mp hc
    exact toLower_alnum c0 (halnum c0 hc0)
  have hne : toLowerList q ≠ [] := by
    intro habs
    have h0 := congrArg List.length habs
    rw [toLowerList, List.length_map, List.length_nil] at h0
    omega
  have hsp : ' ' ∉ toLowerList q := fun hm =>
    absurd rfl (lowerAlnum_ne_space ' ' (hlow ' ' hm))
  have e1 : ∀ text : List Char,
      matchesAllTokens text [toLowerList q] = matchesQuery text q := by
    intro text
    rw [matchesAllTokens_singleton]
    rfl
  have e3 : ∀ tags : List (List Char),
      matchesAllTokens (joinSpace tags) [toLowerList q] =
        tags.any fun tag => matchesQuery tag q := by
    intro tags
    rw [matchesAllTokens_singleton, toLowerList_joinSpace,
      containsSeq_joinSpace (toLowerList q) hne hsp, List.any_map]
    rfl
  rw [ruleRelevance, ruleRelevanceSubstring, e1, e1]
  cases htags : r.tags with
  | none => rfl
  | some tags => simp only [e3]

/-- C10: for any rule list and optional category filter, and any query of
length at least two made only of ASCII letters and digits, the token-based
`searchRules` and the whole-query-substring `searchRules` variant return
the same result sequence — same rules, same relevance annotations, same
order. -/
theorem searchRules_variants_agree (rules : List Rule) (fo : Option (List Char))
    (q : List Char) (hlen : 2 ≤ q.length)
    (halnum : ∀ c ∈ q, isAsciiAlphanum c = true) :
    searchRules rules q fo = searchRulesSubstring rules q fo := by
  have htok : tokenizeQuery q = [toLowerList q] := tokenizeQuery_alnum q hlen halnum
  rw [searchRules, searchRulesSubstring, htok]
  simp only [List.isEmpty_cons, Bool.false_eq_true, if_false]
  congr 1
  rw [searchMatches]
  apply List.filterMap_congr
  intro r _
  rw [ruleRelevance_substring_eq r q hlen halnum]

/-- Witness for C10 at the query `type` over a two-rule list. -/
theorem searchRules_variants_agree_witness :
    (2 ≤ ("type".toList : List Char).length ∧
     (∀ c ∈ ("type".toList : List Char), isAsciiAlphanum c = true) ∧
     searchRules [codingStyleRule, php80Rule] "type".toList none =
       searchRulesSubstring [codingStyleRule, php80Rule] "type".toList none) :=
  ⟨by decide, by decide,
    searchRules_variants_agree [codingStyleRule, php80Rule] none "type".toList
      (by decide) (by decide)⟩

end Rector
